import Mathlib

/-!
Verification of the Game of Life implementation in `src/script.js`.

The live-cell store is modelled as a `Finset` of integer coordinate pairs
(the JavaScript `Set` of `"x,y"` strings; the key encoding itself is
modelled and verified separately at the character-list level).
JavaScript numbers used by the camera, zoom and clock are modelled as
exact rationals.
-/

namespace Gol

abbrev Cell : Type := ℤ × ℤ

/-- The eight Moore-neighborhood offsets, in the order the nested
`for (dy) for (dx)` loops of `getNeighbors` visit them (skipping (0,0)). -/
def neighborOffsets : List (ℤ × ℤ) :=
  [(-1, -1), (0, -1), (1, -1), (-1, 0), (1, 0), (-1, 1), (0, 1), (1, 1)]

/-- Source `getNeighbors(x, y)`: counts, among the eight offset cells, those present
in the alive set. -/
def getNeighbors (A : Finset Cell) (x y : ℤ) : ℕ :=
  neighborOffsets.countP (fun d => decide ((x + d.1, y + d.2) ∈ A))

/-- The candidate set built by the first `forEach` of `nextGen`: every alive
cell together with its eight neighbors. -/
def candidates (A : Finset Cell) : Finset Cell :=
  A.biUnion (fun c => insert c (neighborOffsets.map (fun d => (c.1 + d.1, c.2 + d.2))).toFinset)

/-- Source `nextGen()`: keeps exactly the candidates that the standard Life rule
makes alive, reading liveness and neighbor counts from the pre-advance set. -/
def nextGen (A : Finset Cell) : Finset Cell :=
  (candidates A).filter (fun c =>
    (c ∈ A ∧ (getNeighbors A c.1 c.2 = 2 ∨ getNeighbors A c.1 c.2 = 3)) ∨
    (c ∉ A ∧ getNeighbors A c.1 c.2 = 3))

/-- Source `initGlider(x, y)`: adds the five glider cells anchored at `(x, y)`. -/
def initGlider (x y : ℤ) (A : Finset Cell) : Finset Cell :=
  [(x + 1, y), (x + 2, y + 1), (x, y + 2), (x + 1, y + 2), (x + 2, y + 2)].foldl
    (fun a c => insert c a) A

/-- Specification-level Moore neighborhood: the eight cells horizontally,
vertically or diagonally adjacent to `a`. -/
def mooreNeighborhood (a : Cell) : Finset Cell :=
  {(a.1 - 1, a.2 - 1), (a.1, a.2 - 1), (a.1 + 1, a.2 - 1), (a.1 - 1, a.2),
   (a.1 + 1, a.2), (a.1 - 1, a.2 + 1), (a.1, a.2 + 1), (a.1 + 1, a.2 + 1)}

/-- Specification-level live-neighbor count: how many cells of the Moore
neighborhood of `c` are in the live set `A`. -/
def liveNeighborCount (A : Finset Cell) (c : Cell) : ℕ :=
  (mooreNeighborhood c ∩ A).card

/-- The mutable top-level state of the script: the alive-cell set, the
camera and zoom, the simulation-control variables, the drag state, the
canvas dimensions and the FPS counters. -/
structure GolState where
  aliveCells : Finset Cell
  cameraX : ℚ
  cameraY : ℚ
  zoom : ℚ
  paused : Bool
  delay : ℚ
  lastFrame : ℚ
  isDragging : Bool
  dragStartX : ℚ
  dragStartY : ℚ
  width : ℚ
  height : ℚ
  fps : ℕ
  lastFpsUpdate : ℚ
  framesThisSecond : ℕ

/-- The world x-coordinate of screen x-coordinate `sx` as computed in
`onClick` (and `onWheel` before flooring): `Math.floor(cameraX + sx / zoom)`. -/
def screenToWorldX (cameraX zoom sx : ℚ) : ℤ :=
  ⌊cameraX + sx / zoom⌋

/-- The screen x-coordinate of world x-coordinate `wx` as computed in
`drawGrid`: `Math.floor((wx - cameraX) * zoom)`. -/
def worldToScreenX (cameraX zoom : ℚ) (wx : ℤ) : ℤ :=
  ⌊((wx : ℚ) - cameraX) * zoom⌋

/-- Source `screenToWorld` on both components. -/
def screenToWorld (cameraX cameraY zoom sx sy : ℚ) : Cell :=
  (screenToWorldX cameraX zoom sx, screenToWorldX cameraY zoom sy)

/-- Source `worldToScreen` on both components. -/
def worldToScreen (cameraX cameraY zoom : ℚ) (w : Cell) : ℤ × ℤ :=
  (worldToScreenX cameraX zoom w.1, worldToScreenX cameraY zoom w.2)

/-- Source `resizeCanvas()`: the new canvas size is the window size less the 55px
toolbar; camera and zoom are untouched. -/
def resizeCanvas (st : GolState) (innerWidth innerHeight : ℚ) : GolState :=
  { st with width := innerWidth, height := innerHeight - 55 }

/-- One cell update of the `onClick` paint loop body: a live roll inserts
the key, a dead roll deletes it (deleting an absent key is a no-op, so it
is plain erasure). -/
def paintCell (rand : ℤ → ℤ → Bool) (A : Finset Cell) (x y : ℤ) : Finset Cell :=
  if rand x y then insert (x, y) A else A.erase (x, y)

/-- The integer sequence `a, a+1, ..., a+n-1` traversed by a
`for (v = a; v <= a+n-1; v++)` loop. -/
def rangeList (a : ℤ) (n : ℕ) : List ℤ :=
  (List.range n).map (fun i : ℕ => a + (i : ℤ))

/-- The nested `for x / for y` paint loops of `onClick`, rolling each cell
of the 101×101 square centered on `(wx, wy)`.  The random draw is supplied
as an oracle `rand` giving the Boolean outcome of
`Math.floor(Math.random() * 2)` for the visit to cell `(x, y)` (each cell
is visited exactly once, so indexing draws by cell is faithful). -/
def paintRegion (rand : ℤ → ℤ → Bool) (wx wy : ℤ) (A : Finset Cell) : Finset Cell :=
  (rangeList (wx - 50) 101).foldl
    (fun acc x => (rangeList (wy - 50) 101).foldl (fun acc2 y => paintCell rand acc2 x y) acc) A

/-- Source `handlers.onClick(e)`: ignored while dragging or while running;
otherwise converts the click point to a world anchor and paints the square
region around it. -/
def onClick (st : GolState) (clientX clientY rectLeft rectTop : ℚ)
    (rand : ℤ → ℤ → Bool) : GolState :=
  if st.isDragging || !st.paused then st
  else
    let mx := clientX - rectLeft
    let my := clientY - rectTop
    let wx := screenToWorldX st.cameraX st.zoom mx
    let wy := screenToWorldX st.cameraY st.zoom my
    { st with aliveCells := paintRegion rand wx wy st.aliveCells }

/-- Source `handlers.onWheel(e)`: captures the world point under the cursor,
rescales zoom by 1.1 or 0.9, clamps it to [1, 50], and re-anchors the
camera so the captured world point stays under the cursor. -/
def onWheel (st : GolState) (deltaY clientX clientY rectLeft rectTop : ℚ) : GolState :=
  let mouseX := clientX - rectLeft
  let mouseY := clientY - rectTop
  let wxBeforeZoom := st.cameraX + mouseX / st.zoom
  let wyBeforeZoom := st.cameraY + mouseY / st.zoom
  let zoomFactor : ℚ := if deltaY < 0 then 11 / 10 else 9 / 10
  let zoom := min 50 (max 1 (st.zoom * zoomFactor))
  { st with zoom := zoom,
            cameraX := wxBeforeZoom - mouseX / zoom,
            cameraY := wyBeforeZoom - mouseY / zoom }

/-- Source `handlers.onMouseDown(e)`: a primary-button press starts a drag. -/
def onMouseDown (st : GolState) (button : ℕ) (clientX clientY : ℚ) : GolState :=
  if button ≠ 0 then st
  else { st with isDragging := true, dragStartX := clientX, dragStartY := clientY }

/-- Source `handlers.onMouseUp(e)`: a primary-button release ends the drag. -/
def onMouseUp (st : GolState) (button : ℕ) : GolState :=
  if button ≠ 0 then st else { st with isDragging := false }

/-- Source `handlers.onMouseLeave()`: leaving the canvas ends the drag. -/
def onMouseLeave (st : GolState) : GolState :=
  { st with isDragging := false }

/-- Source `handlers.onMouseMove(e)`: while dragging, pans the camera by the
screen delta divided by zoom and re-anchors the drag start. -/
def onMouseMove (st : GolState) (clientX clientY : ℚ) : GolState :=
  if st.isDragging then
    { st with cameraX := st.cameraX - (clientX - st.dragStartX) / st.zoom,
              cameraY := st.cameraY - (clientY - st.dragStartY) / st.zoom,
              dragStartX := clientX, dragStartY := clientY }
  else st

/-- Source `handlers.onPauseClick()`: toggles the paused flag. -/
def onPauseClick (st : GolState) : GolState :=
  { st with paused := !st.paused }

/-- Source `handlers.onSpeedUpClick()`: decreases the delay by 20 ms, floored at 0. -/
def onSpeedUpClick (st : GolState) : GolState :=
  { st with delay := max 0 (st.delay - 20) }

/-- Source `handlers.onSpeedDownClick()`: increases the delay by 20 ms. -/
def onSpeedDownClick (st : GolState) : GolState :=
  { st with delay := st.delay + 20 }

/-- Source `loop(timestamp)`: updates the FPS counters, initializes `lastFrame`
the first time it is observed falsy (0), and advances one generation when
running and the elapsed time since the last advance exceeds the delay. -/
def loop (st : GolState) (timestamp : ℚ) : GolState :=
  let st1 :=
    if timestamp > st.lastFpsUpdate + 1000 then
      { st with fps := st.framesThisSecond, framesThisSecond := 0, lastFpsUpdate := timestamp }
    else st
  let st2 := { st1 with framesThisSecond := st1.framesThisSecond + 1 }
  let st3 := if st2.lastFrame = 0 then { st2 with lastFrame := timestamp } else st2
  if st3.paused = false ∧ timestamp - st3.lastFrame > st3.delay then
    { st3 with aliveCells := nextGen st3.aliveCells, lastFrame := timestamp }
  else st3

/-- One DOM event consumed by the script's handlers.  The click event
carries the canvas bounding-rect origin and the oracle of its random
draws. -/
inductive GolEvent where
  | resize (innerWidth innerHeight : ℚ)
  | mouseDown (button : ℕ) (clientX clientY : ℚ)
  | mouseUp (button : ℕ)
  | mouseLeave
  | mouseMove (clientX clientY : ℚ)
  | click (clientX clientY rectLeft rectTop : ℚ) (rand : ℤ → ℤ → Bool)
  | wheel (deltaY clientX clientY rectLeft rectTop : ℚ)
  | pauseClick
  | speedUp
  | speedDown
  | frame (timestamp : ℚ)

/-- Whether an event is a wheel event. -/
def GolEvent.isWheel : GolEvent → Bool
  | GolEvent.wheel _ _ _ _ _ => true
  | _ => false

/-- Dispatch of every registered event listener plus the animation-frame
callback. -/
def step (st : GolState) : GolEvent → GolState
  | GolEvent.resize w h => resizeCanvas st w h
  | GolEvent.mouseDown b cx cy => onMouseDown st b cx cy
  | GolEvent.mouseUp b => onMouseUp st b
  | GolEvent.mouseLeave => onMouseLeave st
  | GolEvent.mouseMove cx cy => onMouseMove st cx cy
  | GolEvent.click cx cy rl rt rand => onClick st cx cy rl rt rand
  | GolEvent.wheel d cx cy rl rt => onWheel st d cx cy rl rt
  | GolEvent.pauseClick => onPauseClick st
  | GolEvent.speedUp => onSpeedUpClick st
  | GolEvent.speedDown => onSpeedDownClick st
  | GolEvent.frame t => loop st t

/-!
The string key encoding.  JavaScript strings are modelled as `List Char`;
`cellKey` is the template literal producing the decimal representations of
the two coordinates joined by a comma, and `parseKey` is
`k.split(',').map(Number)`.
-/

/-- The ASCII character of the decimal digit `d`. -/
def digitChar (d : ℕ) : Char := Char.ofNat (48 + d)

/-- Most-significant-first decimal digits of `n` prepended to `acc`
(fuel-indexed so the recursion is structural; `fuel ≥ n` suffices). -/
def natDigits : ℕ → ℕ → List Char → List Char
  | 0, _, acc => acc
  | fuel + 1, n, acc =>
    if n = 0 then acc else natDigits fuel (n / 10) (digitChar (n % 10) :: acc)

/-- The decimal string of a natural number (JavaScript number-to-string on
a nonnegative integer value). -/
def natToString (n : ℕ) : List Char :=
  if n = 0 then ['0'] else natDigits (n + 1) n []

/-- The decimal string of an integer: a minus sign followed by the digits
when negative (JavaScript number-to-string on an integer value). -/
def intToString (i : ℤ) : List Char :=
  if i < 0 then '-' :: natToString i.natAbs else natToString i.natAbs

/-- Source `cellKey(x, y)`: the template literal `` `${x},${y}` ``. -/
def cellKey (x y : ℤ) : List Char :=
  intToString x ++ ',' :: intToString y

/-- Source `String.prototype.split(',')`: the comma-separated chunks of the
string, in order ([""] on the empty string). -/
def splitOnComma : List Char → List (List Char)
  | [] => [[]]
  | c :: cs =>
    if c = ',' then [] :: splitOnComma cs
    else
      match splitOnComma cs with
      | [] => [[c]]
      | r :: rs => (c :: r) :: rs

/-- The value of a string of decimal digits. -/
def digitsVal (l : List Char) : ℕ :=
  l.foldl (fun a c => a * 10 + (c.toNat - 48)) 0

/-- JavaScript `Number` restricted to the strings produced by
`intToString`: an optional leading minus sign followed by decimal digits. -/
def stringToNumber (l : List Char) : ℤ :=
  match l with
  | '-' :: rest => -(digitsVal rest : ℤ)
  | _ => (digitsVal l : ℤ)

/-- Source `parseKey(k)`: `k.split(',').map(Number)`. -/
def parseKey (k : List Char) : List ℤ :=
  (splitOnComma k).map stringToNumber

/-- The startup state of the script: the declared initial values of the
globals, after `resizeCanvas()` and `initGlider(0, 0)` have run. -/
def initialState (innerWidth innerHeight : ℚ) : GolState :=
  resizeCanvas
    { aliveCells := initGlider 0 0 ∅
      cameraX := -40, cameraY := -30, zoom := 10
      paused := false, delay := 0, lastFrame := 0
      isDragging := false, dragStartX := 0, dragStartY := 0
      width := 0, height := 0
      fps := 0, lastFpsUpdate := 0, framesThisSecond := 0 }
    innerWidth innerHeight

/-!  Theorems. -/

theorem mooreNeighborhood_eq_map (a : Cell) :
    mooreNeighborhood a =
      (neighborOffsets.map (fun d => (a.1 + d.1, a.2 + d.2))).toFinset := by
  ext ⟨u, v⟩
  simp only [mooreNeighborhood, neighborOffsets, List.map_cons, List.map_nil,
    List.mem_toFinset, List.mem_cons, List.not_mem_nil, or_false, Prod.mk.injEq,
    Finset.mem_insert, Finset.mem_singleton, ← sub_eq_add_neg, add_zero]

theorem candidates_eq (A : Finset Cell) :
    candidates A = A ∪ A.biUnion mooreNeighborhood := by
  ext c
  simp only [candidates, Finset.mem_biUnion, Finset.mem_insert, Finset.mem_union,
    mooreNeighborhood_eq_map]
  constructor
  · rintro ⟨a, ha, rfl | hc⟩
    · exact Or.inl ha
    · exact Or.inr ⟨a, ha, hc⟩
  · rintro (hc | ⟨a, ha, hc⟩)
    · exact ⟨c, hc, Or.inl rfl⟩
    · exact ⟨a, ha, Or.inr hc⟩

theorem neighborMap_injective (x y : ℤ) :
    Function.Injective (fun d : ℤ × ℤ => (x + d.1, y + d.2)) := by
  rintro ⟨a, b⟩ ⟨c, d⟩ h
  simp only [Prod.ext_iff] at h ⊢
  omega

theorem countP_mem_eq_card_inter (A : Finset Cell) :
    ∀ l : List Cell, l.Nodup → l.countP (fun c => decide (c ∈ A)) = (l.toFinset ∩ A).card := by
  intro l hl
  induction l with
  | nil => simp
  | cons c cs ih =>
    rcases List.nodup_cons.1 hl with ⟨hc, hcs⟩
    rw [List.countP_cons, List.toFinset_cons]
    by_cases h : c ∈ A
    · rw [Finset.insert_inter_of_mem h,
        Finset.card_insert_of_not_mem (by simp [hc])]
      simp [h, ih hcs]
    · rw [Finset.insert_inter_of_not_mem h]
      simp [h, ih hcs]

theorem getNeighbors_eq (A : Finset Cell) (x y : ℤ) :
    getNeighbors A x y = liveNeighborCount A (x, y) := by
  have hnodup : (neighborOffsets.map (fun d : ℤ × ℤ => (x + d.1, y + d.2))).Nodup :=
    List.Nodup.map (neighborMap_injective x y) (by decide)
  have h := countP_mem_eq_card_inter A _ hnodup
  rw [List.countP_map] at h
  have hm := mooreNeighborhood_eq_map (x, y)
  dsimp only at hm
  rw [liveNeighborCount, hm, ← h]
  rfl

/-- C1: one `nextGen` call produces exactly the candidate cells (live cells
plus their Moore neighborhoods) whose next state under the standard Life
rule, evaluated against the pre-advance live set, is live: a live cell is
kept iff its live-neighbor count is 2 or 3, a dead candidate is added iff
its live-neighbor count is 3. -/
theorem nextGen_life_rule (A : Finset Cell) (c : Cell) :
    c ∈ nextGen A ↔
      c ∈ A ∪ A.biUnion mooreNeighborhood ∧
        ((c ∈ A ∧ (liveNeighborCount A c = 2 ∨ liveNeighborCount A c = 3)) ∨
         (c ∉ A ∧ liveNeighborCount A c = 3)) := by
  have h : getNeighbors A c.1 c.2 = liveNeighborCount A c := by
    simpa using getNeighbors_eq A c.1 c.2
  rw [nextGen, Finset.mem_filter, candidates_eq, h]

/-- C2: seeding the glider at the origin yields exactly
{(1,0),(2,1),(0,2),(1,2),(2,2)}, and four `nextGen` calls translate this
five-cell pattern by (+1,+1). -/
theorem glider_translates :
    initGlider 0 0 ∅ = ({(1, 0), (2, 1), (0, 2), (1, 2), (2, 2)} : Finset Cell) ∧
    nextGen^[4] (initGlider 0 0 ∅) =
      ({(2, 1), (3, 2), (1, 3), (2, 3), (3, 3)} : Finset Cell) := by
  constructor
  · decide
  · decide

/-- C3: the empty live-cell set is a fixed point of `nextGen`. -/
theorem nextGen_empty : nextGen (∅ : Finset Cell) = ∅ := by
  decide

/-- C4: one wheel step satisfies the zoom-to-cursor equation exactly with
the post-clamp zoom: the new camera offset is the world point captured
under the cursor before the zoom change, minus the cursor screen position
divided by the new zoom. -/
theorem onWheel_zoom_anchor (st : GolState) (deltaY clientX clientY rectLeft rectTop : ℚ)
    (h1 : 1 ≤ st.zoom) (h2 : st.zoom ≤ 50) :
    (onWheel st deltaY clientX clientY rectLeft rectTop).cameraX =
      (st.cameraX + (clientX - rectLeft) / st.zoom) -
        (clientX - rectLeft) / (onWheel st deltaY clientX clientY rectLeft rectTop).zoom ∧
    (onWheel st deltaY clientX clientY rectLeft rectTop).cameraY =
      (st.cameraY + (clientY - rectTop) / st.zoom) -
        (clientY - rectTop) / (onWheel st deltaY clientX clientY rectLeft rectTop).zoom :=
  ⟨rfl, rfl⟩

/-- C4 witness: the zoom-anchor equations at a concrete in-range state. -/
theorem onWheel_zoom_anchor_witness :
    (1 ≤ (initialState 800 600).zoom ∧ (initialState 800 600).zoom ≤ 50) ∧
    ((onWheel (initialState 800 600) (-3) 100 40 0 0).cameraX =
      ((initialState 800 600).cameraX + (100 - 0) / (initialState 800 600).zoom) -
        (100 - 0) / (onWheel (initialState 800 600) (-3) 100 40 0 0).zoom ∧
     (onWheel (initialState 800 600) (-3) 100 40 0 0).cameraY =
      ((initialState 800 600).cameraY + (40 - 0) / (initialState 800 600).zoom) -
        (40 - 0) / (onWheel (initialState 800 600) (-3) 100 40 0 0).zoom) :=
  ⟨⟨by norm_num [initialState, resizeCanvas], by norm_num [initialState, resizeCanvas]⟩,
   onWheel_zoom_anchor (initialState 800 600) (-3) 100 40 0 0
     (by norm_num [initialState, resizeCanvas]) (by norm_num [initialState, resizeCanvas])⟩

/-- C6: on a frame tick the live set advances by exactly one `nextGen`
call iff the simulation is running and the elapsed time since the last
advance (with `lastFrame` first initialized to the current timestamp when
it is still falsy) exceeds the delay, in which case the advance timestamp
becomes the tick's timestamp; otherwise the live set and advance timestamp
are untouched.  In particular, nothing ever advances while paused and at
most one generation is computed per tick. -/
theorem loop_delay_gating (st : GolState) (t : ℚ) :
    (loop st t).aliveCells =
      (if st.paused = false ∧ t - (if st.lastFrame = 0 then t else st.lastFrame) > st.delay
       then nextGen st.aliveCells else st.aliveCells) ∧
    (loop st t).lastFrame =
      (if st.paused = false ∧ t - (if st.lastFrame = 0 then t else st.lastFrame) > st.delay
       then t else (if st.lastFrame = 0 then t else st.lastFrame)) := by
  unfold loop
  dsimp only
  split <;> split <;> split <;> simp_all

/-- C7: the zoom scalar starts in [1, 50], the wheel handler clamps its
new value into [1, 50], and every other event leaves zoom unchanged. -/
theorem zoom_always_bounded :
    (∀ innerWidth innerHeight : ℚ,
      1 ≤ (initialState innerWidth innerHeight).zoom ∧
        (initialState innerWidth innerHeight).zoom ≤ 50) ∧
    (∀ (st : GolState) (e : GolEvent), 1 ≤ st.zoom → st.zoom ≤ 50 →
      1 ≤ (step st e).zoom ∧ (step st e).zoom ≤ 50) ∧
    (∀ (st : GolState) (e : GolEvent), e.isWheel = false → (step st e).zoom = st.zoom) := by
  refine ⟨fun w h => ⟨by norm_num [initialState, resizeCanvas],
    by norm_num [initialState, resizeCanvas]⟩, ?_, ?_⟩
  · intro st e h1 h2
    cases e with
    | wheel d cx cy rl rt =>
      refine ⟨le_min (by norm_num) (le_max_left 1 _), min_le_left _ _⟩
    | resize w h => exact ⟨h1, h2⟩
    | mouseDown b cx cy =>
      simp only [step, onMouseDown]
      split <;> exact ⟨h1, h2⟩
    | mouseUp b =>
      simp only [step, onMouseUp]
      split <;> exact ⟨h1, h2⟩
    | mouseLeave => exact ⟨h1, h2⟩
    | mouseMove cx cy =>
      simp only [step, onMouseMove]
      split <;> exact ⟨h1, h2⟩
    | click cx cy rl rt rand =>
      simp only [step, onClick]
      split <;> exact ⟨h1, h2⟩
    | pauseClick => exact ⟨h1, h2⟩
    | speedUp => exact ⟨h1, h2⟩
    | speedDown => exact ⟨h1, h2⟩
    | frame t =>
      simp only [step, loop]
      split <;> split <;> split <;> exact ⟨h1, h2⟩
  · intro st e he
    cases e with
    | wheel d cx cy rl rt => simp [GolEvent.isWheel] at he
    | resize w h => rfl
    | mouseDown b cx cy =>
      simp only [step, onMouseDown]
      split <;> rfl
    | mouseUp b =>
      simp only [step, onMouseUp]
      split <;> rfl
    | mouseLeave => rfl
    | mouseMove cx cy =>
      simp only [step, onMouseMove]
      split <;> rfl
    | click cx cy rl rt rand =>
      simp only [step, onClick]
      split <;> rfl
    | pauseClick => rfl
    | speedUp => rfl
    | speedDown => rfl
    | frame t =>
      simp only [step, loop]
      split <;> split <;> split <;> rfl

/-- C7 witness: the bound-preservation part applied at a concrete
in-range state and a concrete non-wheel event. -/
theorem zoom_always_bounded_witness :
    (1 ≤ (initialState 800 600).zoom ∧ (initialState 800 600).zoom ≤ 50) ∧
    (1 ≤ (step (initialState 800 600) GolEvent.pauseClick).zoom ∧
      (step (initialState 800 600) GolEvent.pauseClick).zoom ≤ 50) :=
  ⟨⟨by norm_num [initialState, resizeCanvas], by norm_num [initialState, resizeCanvas]⟩,
   zoom_always_bounded.2.1 (initialState 800 600) GolEvent.pauseClick
     (by norm_num [initialState, resizeCanvas]) (by norm_num [initialState, resizeCanvas])⟩

theorem roundTripX_bounds (c z : ℚ) (hz : 0 < z) (s : ℤ) :
    0 ≤ s - worldToScreenX c z (screenToWorldX c z (s : ℚ)) ∧
    ((s - worldToScreenX c z (screenToWorldX c z (s : ℚ)) : ℤ) : ℚ) < z + 1 := by
  have hzne : z ≠ 0 := ne_of_gt hz
  set w := screenToWorldX c z (s : ℚ) with hw
  set s' := worldToScreenX c z w with hs'
  have h1 : (w : ℚ) ≤ c + (s : ℚ) / z := Int.floor_le _
  have h2 : c + (s : ℚ) / z < w + 1 := Int.lt_floor_add_one _
  have h3 : (s' : ℚ) ≤ ((w : ℚ) - c) * z := Int.floor_le _
  have h4 : ((w : ℚ) - c) * z < s' + 1 := Int.lt_floor_add_one _
  constructor
  · have hle : ((w : ℚ) - c) * z ≤ (s : ℚ) := by
      have hd : (w : ℚ) - c ≤ (s : ℚ) / z := by linarith
      calc ((w : ℚ) - c) * z ≤ ((s : ℚ) / z) * z :=
            mul_le_mul_of_nonneg_right hd (le_of_lt hz)
        _ = (s : ℚ) := div_mul_cancel₀ _ hzne
    have : (s' : ℚ) ≤ (s : ℚ) := le_trans h3 hle
    have : s' ≤ s := by exact_mod_cast this
    omega
  · have hlt : (s : ℚ) < ((w : ℚ) - c) * z + z := by
      have h5 : (s : ℚ) / z < (w : ℚ) + 1 - c := by linarith
      have h6 := mul_lt_mul_of_pos_right h5 hz
      rw [div_mul_cancel₀ _ hzne] at h6
      nlinarith
    have : (s : ℚ) < (s' : ℚ) + 1 + z := by linarith
    push_cast
    linarith

/-- C5 counterexample: with camera x-offset 9/10, zoom 3/2 (within
[1, 50]) and screen point x-coordinate 0, the round trip
`worldToScreen ∘ screenToWorld` lands 2 screen pixels away, which is not
within `[0, zoom)`. -/
theorem roundTrip_not_within_zoom :
    ¬(0 ≤ (0 : ℤ) - worldToScreenX (9 / 10) (3 / 2) (screenToWorldX (9 / 10) (3 / 2) ((0 : ℤ) : ℚ)) ∧
      (((0 : ℤ) - worldToScreenX (9 / 10) (3 / 2) (screenToWorldX (9 / 10) (3 / 2) ((0 : ℤ) : ℚ)) : ℤ) : ℚ)
        < 3 / 2) := by
  intro h
  have h0 : screenToWorldX (9 / 10) (3 / 2) ((0 : ℤ) : ℚ) = 0 := by
    rw [screenToWorldX]
    norm_num
  have hc : worldToScreenX (9 / 10) (3 / 2) 0 = -2 := by
    rw [worldToScreenX]
    norm_num
  rw [h0, hc] at h
  norm_num at h

/-- C5 (amended): composing `screenToWorld` with `worldToScreen` at any
camera state with zoom in [1, 50] and any integer screen point lands
within one cell-width plus one pixel: each component of the difference
lies in `[0, zoom + 1)` (the claimed bound `[0, zoom)` fails for
fractional zoom, as the counterexample shows). -/
theorem roundTrip_within_zoom_succ (cameraX cameraY zoom : ℚ)
    (h1 : 1 ≤ zoom) (h2 : zoom ≤ 50) (sx sy : ℤ) :
    0 ≤ sx - (worldToScreen cameraX cameraY zoom
        (screenToWorld cameraX cameraY zoom (sx : ℚ) (sy : ℚ))).1 ∧
    ((sx - (worldToScreen cameraX cameraY zoom
        (screenToWorld cameraX cameraY zoom (sx : ℚ) (sy : ℚ))).1 : ℤ) : ℚ) < zoom + 1 ∧
    0 ≤ sy - (worldToScreen cameraX cameraY zoom
        (screenToWorld cameraX cameraY zoom (sx : ℚ) (sy : ℚ))).2 ∧
    ((sy - (worldToScreen cameraX cameraY zoom
        (screenToWorld cameraX cameraY zoom (sx : ℚ) (sy : ℚ))).2 : ℤ) : ℚ) < zoom + 1 := by
  have hz : 0 < zoom := lt_of_lt_of_le one_pos h1
  have hx := roundTripX_bounds cameraX zoom hz sx
  have hy := roundTripX_bounds cameraY zoom hz sy
  exact ⟨hx.1, hx.2, hy.1, hy.2⟩

/-- C5 witness: the amended bounds at a concrete camera state and screen
point. -/
theorem roundTrip_within_zoom_succ_witness :
    ((1 : ℚ) ≤ 3 / 2 ∧ (3 : ℚ) / 2 ≤ 50) ∧
    (0 ≤ (0 : ℤ) - (worldToScreen (9 / 10) 0 (3 / 2)
        (screenToWorld (9 / 10) 0 (3 / 2) ((0 : ℤ) : ℚ) ((0 : ℤ) : ℚ))).1 ∧
     (((0 : ℤ) - (worldToScreen (9 / 10) 0 (3 / 2)
        (screenToWorld (9 / 10) 0 (3 / 2) ((0 : ℤ) : ℚ) ((0 : ℤ) : ℚ))).1 : ℤ) : ℚ) < 3 / 2 + 1 ∧
     0 ≤ (0 : ℤ) - (worldToScreen (9 / 10) 0 (3 / 2)
        (screenToWorld (9 / 10) 0 (3 / 2) ((0 : ℤ) : ℚ) ((0 : ℤ) : ℚ))).2 ∧
     (((0 : ℤ) - (worldToScreen (9 / 10) 0 (3 / 2)
        (screenToWorld (9 / 10) 0 (3 / 2) ((0 : ℤ) : ℚ) ((0 : ℤ) : ℚ))).2 : ℤ) : ℚ) < 3 / 2 + 1) :=
  ⟨⟨by norm_num, by norm_num⟩,
   roundTrip_within_zoom_succ (9 / 10) 0 (3 / 2) (by norm_num) (by norm_num) 0 0⟩

theorem mem_paintCell_self (rand : ℤ → ℤ → Bool) (A : Finset Cell) (x y : ℤ) :
    (x, y) ∈ paintCell rand A x y ↔ rand x y = true := by
  by_cases h : rand x y <;> simp [paintCell, h]

theorem mem_paintCell_ne (rand : ℤ → ℤ → Bool) (A : Finset Cell) (x y : ℤ)
    (p : Cell) (h : p ≠ (x, y)) :
    p ∈ paintCell rand A x y ↔ p ∈ A := by
  by_cases hr : rand x y <;> simp [paintCell, hr, h]

theorem mem_paintCol (rand : ℤ → ℤ → Bool) (x : ℤ) (l : List ℤ) (A : Finset Cell) (p : Cell) :
    p ∈ l.foldl (fun acc2 y => paintCell rand acc2 x y) A ↔
      (if p.1 = x ∧ p.2 ∈ l then rand p.1 p.2 = true else p ∈ A) := by
  induction l generalizing A with
  | nil => simp
  | cons y ys ih =>
    rw [List.foldl_cons, ih]
    by_cases h1 : p.1 = x
    · by_cases h2 : p.2 ∈ ys
      · simp [h1, h2]
      · by_cases h3 : p.2 = y
        · have hp : p = (x, y) := by
            rcases p with ⟨a, b⟩
            simp_all
          simp [h1, h2, h3, hp, mem_paintCell_self]
        · have hp : p ≠ (x, y) := by
            rcases p with ⟨a, b⟩
            simp_all
          simp [h1, h2, h3, mem_paintCell_ne rand A x y p hp]
    · have hp : p ≠ (x, y) := by
        rcases p with ⟨a, b⟩
        simp_all
      simp [h1, mem_paintCell_ne rand A x y p hp]

theorem mem_paintCols (rand : ℤ → ℤ → Bool) (xs ys : List ℤ) (A : Finset Cell) (p : Cell) :
    p ∈ xs.foldl (fun acc x => ys.foldl (fun acc2 y => paintCell rand acc2 x y) acc) A ↔
      (if p.1 ∈ xs ∧ p.2 ∈ ys then rand p.1 p.2 = true else p ∈ A) := by
  induction xs generalizing A with
  | nil => simp
  | cons x xs ih =>
    rw [List.foldl_cons, ih, mem_paintCol]
    by_cases h1 : p.1 ∈ xs
    · by_cases h4 : p.2 ∈ ys <;> simp [h1, h4]
    · by_cases h2 : p.1 = x <;> by_cases h3 : p.2 ∈ ys <;> simp [h1, h2, h3]

theorem mem_rangeList (a v : ℤ) (n : ℕ) : v ∈ rangeList a n ↔ a ≤ v ∧ v < a + n := by
  rw [rangeList]
  constructor
  · intro hv
    rcases List.mem_map.1 hv with ⟨i, hi, rfl⟩
    rw [List.mem_range] at hi
    omega
  · rintro ⟨hl, hr⟩
    refine List.mem_map.2 ⟨(v - a).toNat, ?_, ?_⟩
    · rw [List.mem_range]
      omega
    · omega

theorem mem_paintRegion (rand : ℤ → ℤ → Bool) (wx wy : ℤ) (A : Finset Cell) (p : Cell) :
    p ∈ paintRegion rand wx wy A ↔
      (if (wx - 50 ≤ p.1 ∧ p.1 ≤ wx + 50) ∧ (wy - 50 ≤ p.2 ∧ p.2 ≤ wy + 50)
       then rand p.1 p.2 = true else p ∈ A) := by
  rw [paintRegion, mem_paintCols]
  have hiff : (p.1 ∈ rangeList (wx - 50) 101 ∧ p.2 ∈ rangeList (wy - 50) 101) ↔
      ((wx - 50 ≤ p.1 ∧ p.1 ≤ wx + 50) ∧ (wy - 50 ≤ p.2 ∧ p.2 ≤ wy + 50)) := by
    rw [mem_rangeList, mem_rangeList]
    omega
  exact iff_of_eq (if_congr hiff rfl rfl)

/-- C8: a click processed while paused and not dragging overwrites exactly
the 101×101 square of cells centered on the world anchor under the cursor
with the outcomes of the per-cell random draws, and leaves every cell
outside that square with its prior liveness. -/
theorem onClick_paints_region (st : GolState) (clientX clientY rectLeft rectTop : ℚ)
    (rand : ℤ → ℤ → Bool) (hp : st.paused = true) (hd : st.isDragging = false) (p : Cell) :
    p ∈ (onClick st clientX clientY rectLeft rectTop rand).aliveCells ↔
      (if (screenToWorldX st.cameraX st.zoom (clientX - rectLeft) - 50 ≤ p.1 ∧
            p.1 ≤ screenToWorldX st.cameraX st.zoom (clientX - rectLeft) + 50) ∧
          (screenToWorldX st.cameraY st.zoom (clientY - rectTop) - 50 ≤ p.2 ∧
            p.2 ≤ screenToWorldX st.cameraY st.zoom (clientY - rectTop) + 50)
       then rand p.1 p.2 = true else p ∈ st.aliveCells) := by
  rw [onClick]
  simp only [hp, hd, Bool.not_true, Bool.false_or, Bool.or_self, if_false]
  exact mem_paintRegion rand _ _ st.aliveCells p

/-- C8 witness: the paint characterization at a concrete paused state,
oracle and cell. -/
theorem onClick_paints_region_witness :
    ({ initialState 800 600 with paused := true } : GolState).paused = true ∧
    ({ initialState 800 600 with paused := true } : GolState).isDragging = false ∧
    (((0, 0) : Cell) ∈ (onClick { initialState 800 600 with paused := true }
        20 20 0 0 (fun _ _ => true)).aliveCells ↔
      (if (screenToWorldX ({ initialState 800 600 with paused := true } : GolState).cameraX
              ({ initialState 800 600 with paused := true } : GolState).zoom (20 - 0) - 50 ≤ 0 ∧
            (0 : ℤ) ≤ screenToWorldX ({ initialState 800 600 with paused := true } : GolState).cameraX
              ({ initialState 800 600 with paused := true } : GolState).zoom (20 - 0) + 50) ∧
          (screenToWorldX ({ initialState 800 600 with paused := true } : GolState).cameraY
              ({ initialState 800 600 with paused := true } : GolState).zoom (20 - 0) - 50 ≤ 0 ∧
            (0 : ℤ) ≤ screenToWorldX ({ initialState 800 600 with paused := true } : GolState).cameraY
              ({ initialState 800 600 with paused := true } : GolState).zoom (20 - 0) + 50)
       then (fun (_ _ : ℤ) => true) (0 : ℤ) (0 : ℤ) = true
       else ((0, 0) : Cell) ∈ ({ initialState 800 600 with paused := true } : GolState).aliveCells)) :=
  ⟨rfl, rfl,
   onClick_paints_region { initialState 800 600 with paused := true } 20 20 0 0
     (fun _ _ => true) rfl rfl (0, 0)⟩

/-- C9: a click while the simulation runs or while a drag is in progress
changes nothing: the handler returns the state unchanged. -/
theorem onClick_disabled (st : GolState) (clientX clientY rectLeft rectTop : ℚ)
    (rand : ℤ → ℤ → Bool) (h : st.isDragging = true ∨ st.paused = false) :
    onClick st clientX clientY rectLeft rectTop rand = st := by
  rw [onClick]
  rcases h with h | h <;> simp [h]

/-- C9 witness: the initial state is running, so a click there is a no-op. -/
theorem onClick_disabled_witness :
    (initialState 800 600).paused = false ∧
    onClick (initialState 800 600) 5 5 0 0 (fun _ _ => true) = initialState 800 600 :=
  ⟨rfl, onClick_disabled (initialState 800 600) 5 5 0 0 (fun _ _ => true) (Or.inr rfl)⟩

theorem digitChar_toNat (d : ℕ) (h : d < 10) : (digitChar d).toNat = 48 + d := by
  interval_cases d <;> decide

theorem digitChar_ne_dash (d : ℕ) (h : d < 10) : digitChar d ≠ '-' := by
  interval_cases d <;> decide

theorem digitChar_ne_comma (d : ℕ) (h : d < 10) : digitChar d ≠ ',' := by
  interval_cases d <;> decide

theorem natDigits_zero (fuel : ℕ) (acc : List Char) : natDigits fuel 0 acc = acc := by
  cases fuel <;> simp [natDigits]

theorem natDigits_append (fuel : ℕ) :
    ∀ n acc, natDigits fuel n acc = natDigits fuel n [] ++ acc := by
  induction fuel with
  | zero => intro n acc; simp [natDigits]
  | succ fuel ih =>
    intro n acc
    by_cases hn : n = 0
    · simp [natDigits, hn]
    · rw [natDigits, if_neg hn, natDigits, if_neg hn, ih (n / 10) (digitChar (n % 10) :: acc),
        ih (n / 10) [digitChar (n % 10)], List.append_assoc]
      rfl

theorem natDigits_foldl (fuel : ℕ) :
    ∀ n, n ≤ fuel → ∀ a : ℕ,
      (natDigits fuel n []).foldl (fun a c => a * 10 + (c.toNat - 48)) a =
        a * 10 ^ (natDigits fuel n []).length + n := by
  induction fuel with
  | zero =>
    intro n hn a
    interval_cases n
    simp [natDigits]
  | succ fuel ih =>
    intro n hn a
    by_cases h0 : n = 0
    · subst h0
      simp [natDigits_zero]
    · have heq : natDigits (fuel + 1) n [] =
          natDigits fuel (n / 10) [] ++ [digitChar (n % 10)] := by
        rw [natDigits, if_neg h0, natDigits_append]
      have hfuel : n / 10 ≤ fuel := by omega
      rw [heq, List.foldl_append, List.length_append, ih (n / 10) hfuel a]
      simp only [List.foldl_cons, List.foldl_nil, List.length_singleton]
      rw [digitChar_toNat (n % 10) (by omega)]
      have hsub : 48 + n % 10 - 48 = n % 10 := by omega
      rw [hsub, pow_succ]
      have hmod : n / 10 * 10 + n % 10 = n := by omega
      calc (a * 10 ^ (natDigits fuel (n / 10) []).length + n / 10) * 10 + n % 10
          = a * (10 ^ (natDigits fuel (n / 10) []).length * 10) +
              (n / 10 * 10 + n % 10) := by ring
        _ = a * (10 ^ (natDigits fuel (n / 10) []).length * 10) + n := by rw [hmod]

theorem digitsVal_natToString (n : ℕ) : digitsVal (natToString n) = n := by
  by_cases h0 : n = 0
  · subst h0
    decide
  · rw [natToString, if_neg h0, digitsVal, natDigits_foldl (n + 1) n (by omega) 0]
    simp

theorem natToString_head (n : ℕ) :
    ∃ d, d < 10 ∧ ∃ rest, natToString n = digitChar d :: rest := by
  by_cases h0 : n = 0
  · subst h0
    exact ⟨0, by omega, [], by decide⟩
  · rw [natToString, if_neg h0]
    have : ∀ fuel, ∀ n acc, n ≠ 0 → n ≤ fuel →
        ∃ d, d < 10 ∧ ∃ rest, natDigits fuel n acc = digitChar d :: rest := by
      intro fuel
      induction fuel with
      | zero => intro n acc hn hf; omega
      | succ fuel ih =>
        intro n acc hn hf
        rw [natDigits, if_neg hn]
        by_cases h10 : n / 10 = 0
        · rw [h10, natDigits_zero]
          exact ⟨n % 10, by omega, acc, rfl⟩
        · exact ih (n / 10) (digitChar (n % 10) :: acc) h10 (by omega)
    exact this (n + 1) n [] h0 (by omega)

theorem natToString_chars (n : ℕ) :
    ∀ c ∈ natToString n, ∃ d, d < 10 ∧ c = digitChar d := by
  by_cases h0 : n = 0
  · subst h0
    intro c hc
    rw [natToString] at hc
    simp at hc
    exact ⟨0, by omega, by rw [hc]; decide⟩
  · rw [natToString, if_neg h0]
    have : ∀ fuel, ∀ n acc c, c ∈ natDigits fuel n acc →
        c ∈ acc ∨ ∃ d, d < 10 ∧ c = digitChar d := by
      intro fuel
      induction fuel with
      | zero => intro n acc c hc; rw [natDigits] at hc; exact Or.inl hc
      | succ fuel ih =>
        intro n acc c hc
        by_cases hn : n = 0
        · rw [natDigits, if_pos hn] at hc
          exact Or.inl hc
        · rw [natDigits, if_neg hn] at hc
          rcases ih (n / 10) (digitChar (n % 10) :: acc) c hc with h | h
          · rcases List.mem_cons.1 h with h | h
            · exact Or.inr ⟨n % 10, by omega, h⟩
            · exact Or.inl h
          · exact Or.inr h
    intro c hc
    rcases this (n + 1) n [] c hc with h | h
    · simp at h
    · exact h

theorem intToString_no_comma (i : ℤ) : ∀ c ∈ intToString i, c ≠ ',' := by
  intro c hc
  rw [intToString] at hc
  by_cases hi : i < 0
  · rw [if_pos hi] at hc
    rcases List.mem_cons.1 hc with h | h
    · rw [h]; decide
    · rcases natToString_chars i.natAbs c h with ⟨d, hd, rfl⟩
      exact digitChar_ne_comma d hd
  · rw [if_neg hi] at hc
    rcases natToString_chars i.natAbs c hc with ⟨d, hd, rfl⟩
    exact digitChar_ne_comma d hd

theorem stringToNumber_cons_ne (c : Char) (cs : List Char) (h : c ≠ '-') :
    stringToNumber (c :: cs) = (digitsVal (c :: cs) : ℤ) := by
  unfold stringToNumber
  split
  · rename_i rest heq
    rw [List.cons.injEq] at heq
    exact absurd heq.1 h
  · rfl

theorem stringToNumber_intToString (i : ℤ) : stringToNumber (intToString i) = i := by
  by_cases hi : i < 0
  · rw [intToString, if_pos hi]
    have h1 : stringToNumber ('-' :: natToString i.natAbs) =
        -(digitsVal (natToString i.natAbs) : ℤ) := rfl
    rw [h1, digitsVal_natToString]
    omega
  · rw [intToString, if_neg hi]
    rcases natToString_head i.natAbs with ⟨d, hd, rest, heq⟩
    rw [heq, stringToNumber_cons_ne _ _ (digitChar_ne_dash d hd), ← heq,
      digitsVal_natToString]
    omega

theorem splitOnComma_ne_nil (l : List Char) : splitOnComma l ≠ [] := by
  induction l with
  | nil => simp [splitOnComma]
  | cons c cs ih =>
    rw [splitOnComma]
    by_cases h : c = ','
    · simp [h]
    · rw [if_neg h]
      rcases hsp : splitOnComma cs with _ | ⟨r, rs⟩
      · exact absurd hsp ih
      · simp

theorem splitOnComma_no_comma (a : List Char) (ha : ∀ c ∈ a, c ≠ ',') :
    splitOnComma a = [a] := by
  induction a with
  | nil => rfl
  | cons c cs ih =>
    have hc : c ≠ ',' := ha c (List.mem_cons_self c cs)
    rw [splitOnComma, if_neg hc, ih (fun x hx => ha x (List.mem_cons_of_mem c hx))]

theorem splitOnComma_append (a b : List Char) (ha : ∀ c ∈ a, c ≠ ',') :
    splitOnComma (a ++ ',' :: b) = a :: splitOnComma b := by
  induction a with
  | nil => simp [splitOnComma]
  | cons c cs ih =>
    have hc : c ≠ ',' := ha c (List.mem_cons_self c cs)
    rw [List.cons_append, splitOnComma, if_neg hc,
      ih (fun x hx => ha x (List.mem_cons_of_mem c hx))]

/-- C10: parsing a cell key recovers exactly the coordinate pair it was
built from, and the key encoding is injective, so the string-keyed set
faithfully represents a set of integer coordinate pairs. -/
theorem parseKey_cellKey :
    (∀ x y : ℤ, parseKey (cellKey x y) = [x, y]) ∧
    (∀ x₁ y₁ x₂ y₂ : ℤ, cellKey x₁ y₁ = cellKey x₂ y₂ → x₁ = x₂ ∧ y₁ = y₂) := by
  have hrt : ∀ x y : ℤ, parseKey (cellKey x y) = [x, y] := by
    intro x y
    rw [parseKey, cellKey, splitOnComma_append _ _ (intToString_no_comma x),
      splitOnComma_no_comma _ (intToString_no_comma y)]
    rw [List.map_cons, List.map_cons, List.map_nil,
      stringToNumber_intToString, stringToNumber_intToString]
  refine ⟨hrt, fun x₁ y₁ x₂ y₂ h => ?_⟩
  have h2 : ([x₁, y₁] : List ℤ) = [x₂, y₂] := by
    rw [← hrt x₁ y₁, ← hrt x₂ y₂, h]
  simp at h2
  exact h2

/-- C10 witness: the round trip and the injectivity consequence at a
concrete coordinate pair. -/
theorem parseKey_cellKey_witness :
    parseKey (cellKey 12 (-3)) = [12, -3] ∧ ((12 : ℤ) = 12 ∧ (-3 : ℤ) = -3) :=
  ⟨parseKey_cellKey.1 12 (-3), parseKey_cellKey.2 12 (-3) 12 (-3) rfl⟩

end Gol
